import Mathlib

set_option maxRecDepth 8000

/-! # Verification of the IRC/ChatGPT bot (`chatbot.py`)

Shallow embedding of the bot's pure core.  Python strings are modelled as
`List Char`; Python slicing (`s[i:j]`), `str.split`, `str.strip`,
`str.lstrip`, `str.rfind`, `str.replace` and `str.startswith` are
translated element-for-element below.  Fallible Python code (attribute
accesses and list indexing that can raise) is modelled with explicit
error values. -/

/-- Converts a Lean string literal to the `List Char` representation used
throughout. -/
def pstr (s : String) : List Char := s.data

/-- The characters Python `str.strip()` / `str.split()` treat as
whitespace — exactly those with `str.isspace()` true: the ASCII
whitespace `\t \n \v \f \r` and space, the separators `\x1c`-`\x1f`,
NEL `\x85`, NBSP `\xa0`, Ogham space mark U+1680, the en-quad..hair
space range U+2000-U+200A, the line and paragraph separators
U+2028/U+2029, narrow no-break space U+202F, medium mathematical space
U+205F and ideographic space U+3000. -/
def isPySpace (c : Char) : Bool :=
  ([0x09, 0x0a, 0x0b, 0x0c, 0x0d, 0x1c, 0x1d, 0x1e, 0x1f, 0x20,
    0x85, 0xa0, 0x1680, 0x2028, 0x2029, 0x202f, 0x205f, 0x3000] : List Nat).contains c.toNat
  || (decide (0x2000 ≤ c.toNat) && decide (c.toNat ≤ 0x200a))

/-- Python `s.rstrip()` on a `List Char`. -/
def pyStripEnd (s : List Char) : List Char :=
  (s.reverse.dropWhile isPySpace).reverse

/-- Python `s.strip()` on a `List Char`. -/
def pyStrip (s : List Char) : List Char :=
  pyStripEnd (s.dropWhile isPySpace)

/-- Python `s.lstrip(":")`: drop every leading `':'`. -/
def pyLstripColon (s : List Char) : List Char :=
  s.dropWhile (· == ':')

/-- Python `s.rfind(c)` on a `List Char`: index of the last occurrence of
`c`, or `none` (Python's `-1`) when `c` does not occur. -/
def rfindIdx (c : Char) : List Char → Option Nat
  | [] => none
  | a :: s =>
    match rfindIdx c s with
    | some i => some (i + 1)
    | none => if a = c then some 0 else none

/-- `IRCBot.split_at_word_boundary` (chatbot.py lines 180-189):
return the whole text when it fits, otherwise cut at the last space
before `max_length` (hard cut at `max_length` when there is no space). -/
def split_at_word_boundary (text : List Char) (max_length : Nat) : List Char :=
  if text.length ≤ max_length then text
  else
    match rfindIdx ' ' (text.take max_length) with
    | none => text.take max_length
    | some space_index => text.take space_index

/-- Fuel-indexed form of the outbound re-chunking loop of
`IRCBot.handle_message` (chatbot.py lines 219-224):
`while remaining: chunk = split_at_word_boundary(remaining, m);
 irc_chunks.append(chunk); remaining = remaining[len(chunk):].strip()`.
The fuel only bounds the iteration count; `splitChunks` below supplies
enough fuel for every terminating run (for `m ≥ 1` each iteration
strictly shrinks `remaining`, so `remaining.length` iterations suffice,
which `splitChunksF_fuel` proves). -/
def splitChunksF (m : Nat) : Nat → List Char → List (List Char)
  | 0, _ => []
  | _ + 1, [] => []
  | fuel + 1, c :: cs =>
    let chunk := split_at_word_boundary (c :: cs) m
    chunk :: splitChunksF m fuel (pyStrip ((c :: cs).drop chunk.length))

/-- The outbound re-chunking loop with the word-boundary splitter; the
source runs it with `m = 400`. -/
def splitChunks (m : Nat) (text : List Char) : List (List Char) :=
  splitChunksF m text.length text

/-- Python `" ".join(xs)` on `List Char` strings (also the join used to
state the reconstruction property of the spec). -/
def joinSp : List (List Char) → List Char
  | [] => []
  | [w] => w
  | w :: v :: ws => w ++ ' ' :: joinSp (v :: ws)

/-- Fuel-indexed helper for `collapseWs`; fuel `s.length` always
suffices since each step consumes at least one character. -/
def collapseWsF : Nat → List Char → List Char
  | 0, _ => []
  | _ + 1, [] => []
  | fuel + 1, c :: cs =>
    if isPySpace c then ' ' :: collapseWsF fuel (cs.dropWhile isPySpace)
    else c :: collapseWsF fuel cs

/-- Modelled from the spec: "the input text with every run of whitespace
collapsed to a single space" (spec §8, MessageChunker property).  Used
only to compare the code's behaviour against the spec's words. -/
def collapseWs (s : List Char) : List Char := collapseWsF s.length s

/-! ## Conversation store (`ChatGPTBot`, chatbot.py lines 57-88) -/

inductive Role where
  | user
  | assistant
  | system
deriving DecidableEq, Repr

structure Entry where
  role : Role
  content : String
deriving DecidableEq, Repr

/-- One `ChatGPTBot.respond` call's effect on a user's stored history
(lines 81-86): append the user message and the assistant reply, then if
the history exceeds 20 entries retain only the latest 19
(`self.user_context[user] = self.user_context[user][-19:]`). -/
def respondStep (hist : List Entry) (message reply : String) : List Entry :=
  let h := hist ++ [⟨Role.user, message⟩, ⟨Role.assistant, reply⟩]
  if h.length > 20 then h.drop (h.length - 19) else h

/-- The context sent to the API by `respond` (lines 65-66): the
administrative prompt prepended fresh, then the stored history, then the
new user message. -/
def buildContext (admin : Entry) (hist : List Entry) (message : String) : List Entry :=
  admin :: (hist ++ [⟨Role.user, message⟩])

/-- Folding a sequence of user/assistant pairs through `respondStep`,
starting from a given stored history. -/
def foldHist (hist : List Entry) : List (String × String) → List Entry
  | [] => hist
  | p :: ps => foldHist (respondStep hist p.1 p.2) ps

/-- The two entries appended by one respond call. -/
def pairEntries (p : String × String) : List Entry :=
  [⟨Role.user, p.1⟩, ⟨Role.assistant, p.2⟩]

/-- All entries appended over a sequence of respond calls, in order. -/
def appendAll : List (String × String) → List Entry
  | [] => []
  | p :: ps => pairEntries p ++ appendAll ps

/-- The length recurrence of the stored history: starting from a history
of length `l`, the length after `n` respond calls. -/
def lenFold : Nat → Nat → Nat
  | l, 0 => l
  | l, n + 1 => lenFold (if l + 2 > 20 then 19 else l + 2) n

/-! ## Outbound send loop (`handle_message`, chatbot.py lines 228-236) -/

/-- First-chunk message: `f"PRIVMSG {channel} :{user}: {chunk}"`. -/
def privAddr (channel user chunk : List Char) : List Char :=
  pstr "PRIVMSG " ++ channel ++ pstr " :" ++ user ++ pstr ": " ++ chunk

/-- Later-chunk message: `f"PRIVMSG {channel} :{chunk}"`. -/
def privPlain (channel chunk : List Char) : List Char :=
  pstr "PRIVMSG " ++ channel ++ pstr " :" ++ chunk

/-- The send loop of lines 228-236: builds each chunk's message (the
user-address decoration only at index 0), attempts the sends in order
and stops at the first failing send (`except ...: break`), keeping what
was already delivered.  `ok i` says whether the `i`-th send succeeds;
the returned list holds the messages actually delivered. -/
def sendChunks (channel user : List Char) (ok : Nat → Bool) :
    Nat → List (List Char) → List (List Char)
  | _, [] => []
  | i, c :: cs =>
    let msg := if i = 0 then privAddr channel user c else privPlain channel c
    if ok i then msg :: sendChunks channel user ok (i + 1) cs else []

/-- The messages the loop would build when every send succeeds. -/
def buildMsgs (channel user : List Char) : Nat → List (List Char) → List (List Char)
  | _, [] => []
  | i, c :: cs =>
    (if i = 0 then privAddr channel user c else privPlain channel c) ::
      buildMsgs channel user (i + 1) cs

/-! ## Python `str.split` variants -/

/-- Helper for `pySplitLimit`; `acc` holds the current field reversed. -/
def pySplitLimitGo (sep : Char) : Nat → List Char → List Char → List (List Char)
  | _, acc, [] => [acc.reverse]
  | 0, acc, rest => [acc.reverse ++ rest]
  | n + 1, acc, c :: cs =>
    if c = sep then acc.reverse :: pySplitLimitGo sep n [] cs
    else pySplitLimitGo sep (n + 1) (c :: acc) cs

/-- Python `s.split(sep, maxsplit)` for a single-character separator:
split on each occurrence (keeping empty fields) at most `maxsplit`
times; the last field keeps the remainder verbatim. -/
def pySplitLimit (sep : Char) (maxsplit : Nat) (s : List Char) : List (List Char) :=
  pySplitLimitGo sep maxsplit [] s

/-- Python `s.split(sep)` (no limit) for a single-character separator. -/
def pySplitChar (sep : Char) (s : List Char) : List (List Char) :=
  s.splitOnP (· == sep)

/-- Python `s.split()` (no separator argument): split on whitespace,
discarding empty fields. -/
def pySplitWs (s : List Char) : List (List Char) :=
  (s.splitOnP isPySpace).filter (fun w => !w.isEmpty)

/-- Index of the first occurrence of `sep` as a contiguous substring of
`s` (`none` when absent).  Mirrors Python `s.find(sep)`. -/
def findSubstr (sep s : List Char) : Option Nat :=
  (List.range (s.length + 1)).find? (fun i => sep.isPrefixOf (s.drop i))

/-- Python `sep in s` (substring containment, line 168). -/
def containsSeq (sep s : List Char) : Bool :=
  (findSubstr sep s).isSome

/-- Fuel-indexed split on a multi-character separator; fuel `s.length`
suffices for a nonempty separator. -/
def splitOnSeqF (sep : List Char) : Nat → List Char → List (List Char)
  | 0, s => [s]
  | fuel + 1, s =>
    match findSubstr sep s with
    | none => [s]
    | some i => s.take i :: splitOnSeqF sep fuel (s.drop (i + sep.length))

/-- Python `s.split(sep)` for a multi-character separator (used with
`"\r\n"` by the read loop, line 159). -/
def splitOnSeq (sep s : List Char) : List (List Char) :=
  splitOnSeqF sep s.length s

/-- Python `s.split(sep, 1)[1]` for a nonempty separator occurring in
`s`: the text after the first occurrence.  (When the separator does not
occur, Python's `[1]` would raise `IndexError`; the call site at line
208 is guarded by `startswith`, which guarantees an occurrence at
index 0, and the bot's nickname is nonempty.) -/
def splitOnceRest (sep s : List Char) : List Char :=
  match findSubstr sep s with
  | some i => s.drop (i + sep.length)
  | none => s

/-! ## `IRCBot.handle_message` (chatbot.py lines 191-236) -/

/-- Python `s.replace("\n", " ")` (line 215). -/
def replaceNlSp (s : List Char) : List Char :=
  s.map (fun c => if c = '\n' then ' ' else c)

/-- The inbound prompt slicing of line 211:
`[prompt[i:i+n] for i in range(0, len(prompt), n)]` (the source uses
`n = 500`).  Fuel-indexed; fuel `s.length` suffices for `n ≥ 1`. -/
def fixedSlicesF (n : Nat) : Nat → List Char → List (List Char)
  | _, [] => []
  | 0, s => [s]
  | fuel + 1, s => s.take n :: fixedSlicesF n fuel (s.drop n)

/-- The inbound prompt slicing with enough fuel. -/
def fixedSlices (n : Nat) (s : List Char) : List (List Char) :=
  fixedSlicesF n s.length s

/-- The `"PRIVMSG"` verb token. -/
def PRIVMSGtok : List Char := pstr "PRIVMSG"

/-- Responder calls and outbound messages of `IRCBot.handle_message`
(lines 191-236).  `nick` is the configured nickname; `f` abstracts
`ChatGPTBot.respond` as the reply returned for a `(user, chunk)` call;
`ok` says which outbound sends succeed.  Returns the list of responder
calls made (in order) and the list of PRIVMSG lines actually sent. -/
def handleMessage (nick : List Char) (f : List Char → List Char → List Char)
    (ok : Nat → Bool) (message : List Char) :
    List (List Char × List Char) × List (List Char) :=
  let parts := pySplitLimit ' ' 3 message
  if parts.length < 4 ∨ parts.getD 1 [] ≠ PRIVMSGtok then ([], [])
  else
    let user := ((pySplitChar '!' (parts.getD 0 [])).getD 0 []).drop 1
    let channel0 := parts.getD 2 []
    let msg_content := (parts.getD 3 []).drop 1
    let channel := if channel0 = nick then user else channel0
    if nick.isPrefixOf msg_content then
      let prompt := pyLstripColon (pyStrip (splitOnceRest nick msg_content))
      let chunks := fixedSlices 500 prompt
      let calls := chunks.map (fun c => (user, c))
      let responses := chunks.map (fun c => f user c)
      let response := pyStrip (replaceNlSp (joinSp responses))
      let irc_chunks := splitChunks 400 response
      (calls, sendChunks channel user ok 0 irc_chunks)
    else ([], [])

/-- The message text a line carries into the addressing check: the
fourth space-limited part minus its leading `:` (lines 192, 198). -/
def msgContentOf (message : List Char) : List Char :=
  ((pySplitLimit ' ' 3 message).getD 3 []).drop 1

/-- Modelled from the spec: the user prompt is "the remainder after
stripping the nickname and a trailing colon/whitespace" (spec §4.3) —
the text after the nickname with the adjoining run of colons and
whitespace removed.  Used only to compare the code's prompt extraction
against the spec's words. -/
def promptSpec (nick msg : List Char) : List Char :=
  (msg.drop nick.length).dropWhile (fun c => c == ':' || isPySpace c)

/-! ## `IRCBot.listen` (chatbot.py lines 154-178) -/

/-- Python exception kinds raised by the modelled code. -/
inductive PyErr where
  | indexError
  | typeError
deriving DecidableEq, Repr

/-- PING handling (lines 164-167): for a line starting with `PING`,
`server = line.split()[1]` (raising `IndexError` when the line has no
second whitespace token) and `PONG <server>` is sent.  Returns the sends
performed and the error raised, if any. -/
def pongActions (line : List Char) : List (List Char) × Option PyErr :=
  if (pstr "PING").isPrefixOf line then
    match (pySplitWs line)[1]? with
    | some server => ([pstr "PONG " ++ server], none)
    | none => ([], some PyErr.indexError)
  else ([], none)

/-- INVITE handling (lines 168-173): for a line containing `INVITE`,
`parts = line.split()`, the inviter is read from `parts[0]` and the
channel from `parts[3]` minus its leading sigil (raising `IndexError`
when a token is missing), and `JOIN <channel>` is sent. -/
def inviteActions (line : List Char) : List (List Char) × Option PyErr :=
  if containsSeq (pstr "INVITE") line then
    let parts := pySplitWs line
    match parts[0]?, parts[3]? with
    | some _, some p3 => ([pstr "JOIN " ++ p3.drop 1], none)
    | _, _ => ([], some PyErr.indexError)
  else ([], none)

/-- The per-line body of the `for line in lines` loop (lines 162-173):
PING handling then INVITE handling; an exception stops the line's
processing but keeps the sends already made. -/
def processLine (line : List Char) : List (List Char) × Option PyErr :=
  match pongActions line with
  | (a, some e) => (a, some e)
  | (a, none) =>
    match inviteActions line with
    | (b, e) => (a ++ b, e)

/-- Runs the `for line in lines` loop over the extracted lines.  Returns
the sends performed, the last line the loop reached (the value Python's
`line` variable holds afterwards), and whether an exception aborted the
loop (it then propagates to the `except` at line 176, skipping the
`handle_message` call). -/
def processLines : List (List Char) → List (List Char) × Option (List Char) × Bool
  | [] => ([], none, false)
  | l :: ls =>
    match processLine l with
    | (a, some _) => (a, some l, true)
    | (a, none) =>
      match processLines ls with
      | (rest, lv, ab) => (a ++ rest, some (lv.getD l), ab)

/-- The state the read loop carries across iterations: the partial-line
carry-over buffer and the current value of the Python variable `line`
(`none` before any line was iterated — a read with no complete line then
raises `NameError` at `handle_message(line)`, caught at line 176). -/
structure ListenState where
  buffer : List Char
  lastLine : Option (List Char)
deriving DecidableEq, Repr

/-- Everything one iteration of the read loop produces. -/
structure IterOut where
  state : ListenState
  dispatched : List (List Char)
  calls : List (List Char × List Char)
  sends : List (List Char)
deriving DecidableEq, Repr

/-- One iteration of `IRCBot.listen`'s `while True` body (lines
157-175) on a received block `data`: extend the buffer, split on CRLF,
pop the trailing fragment back into the buffer, run the per-line loop,
and — note the source's indentation — call `handle_message` once, on
whatever the variable `line` holds, outside the `for` loop (line 174).
`dispatched` records the lines passed to `handle_message`. -/
def listenIter (nick : List Char) (f : List Char → List Char → List Char)
    (ok : Nat → Bool) (st : ListenState) (data : List Char) : IterOut :=
  let buf := st.buffer ++ data
  let pieces := splitOnSeq (pstr "\r\n") buf
  let newBuffer := (pieces.getLast?).getD []
  let lines := pieces.dropLast
  match processLines lines with
  | (sends, lastV, aborted) =>
    let lastLine := match lastV with | some l => some l | none => st.lastLine
    if aborted then ⟨⟨newBuffer, lastLine⟩, [], [], sends⟩
    else
      match lastLine with
      | none => ⟨⟨newBuffer, none⟩, [], [], sends⟩
      | some l =>
        match handleMessage nick f ok l with
        | (calls, hmSends) => ⟨⟨newBuffer, some l⟩, [l], calls, sends ++ hmSends⟩

/-- Runs the read loop over a sequence of received blocks, collecting
the lines passed to `handle_message`. -/
def runListen (nick : List Char) (f : List Char → List Char → List Char)
    (ok : Nat → Bool) : ListenState → List (List Char) → List (List Char)
  | _, [] => []
  | st, d :: ds =>
    let o := listenIter nick f ok st d
    o.dispatched ++ runListen nick f ok o.state ds

/-- Runs the read loop over a sequence of received blocks, collecting
the outbound sends. -/
def runListenSends (nick : List Char) (f : List Char → List Char → List Char)
    (ok : Nat → Bool) : ListenState → List (List Char) → List (List Char)
  | _, [] => []
  | st, d :: ds =>
    let o := listenIter nick f ok st d
    o.sends ++ runListenSends nick f ok o.state ds

/-! ## Configuration hot-reload (`IRCBot.update_config`, lines 113-120) -/

/-- Chat parameters; their numeric values never matter to the claims, so
they are carried opaquely as key/value text. -/
abbrev ChatParams := List (String × String)

/-- The responder-affecting state of `ChatGPTBot` (lines 57-62). -/
structure GptState where
  api_key : String
  admin_prompt : String
  chat_params : ChatParams
deriving DecidableEq, Repr

/-- `ChatGPTBot.__init__` (line 58): requires the API key, the
administrative prompt and the chat parameters. -/
def ChatGPTBot_init (api_key admin_prompt : String) (chat_params : ChatParams) : GptState :=
  ⟨api_key, admin_prompt, chat_params⟩

/-- A configuration record; `openai_api_key = some k` models the key
being present in the dict (so `"openai_api_key" in new_config` is
true).  A full replacement record carries every recognised field. -/
structure Config where
  openai_api_key : Option String
  admin_prompt : String
  chat_params : ChatParams
  nickname : String
deriving DecidableEq, Repr

/-- The bot attributes touched by `update_config`. -/
structure IRCState where
  admin_prompt : String
  chat_params : ChatParams
  nickname : String
  chatgpt_bot : GptState
  config : Option Config
deriving DecidableEq, Repr

/-- `IRCBot.update_config` (lines 113-120).  It stores the new record in
`self.config`; then, when the key `openai_api_key` is present, it
evaluates `ChatGPTBot(new_config["openai_api_key"], self.admin_prompt)`
— a call passing two arguments to a constructor whose signature
(line 58) requires three (`api_key, admin_prompt, chat_params`), so
Python raises `TypeError` before anything is assigned to
`self.chatgpt_bot`.  Returns the state as mutated so far together with
the error raised, if any. -/
def update_config (st : IRCState) (new_config : Config) : IRCState × Option PyErr :=
  let st1 := { st with config := some new_config }
  if new_config.openai_api_key.isSome then (st1, some PyErr.typeError)
  else (st1, none)

example : splitChunks 1 (pstr "ab") = [pstr "a", pstr "b"] := by decide
example : splitChunks 3 (pstr "a  b") = [pstr "a ", pstr "b"] := by decide
example : joinSp (splitChunks 3 (pstr "a  b")) = pstr "a  b" := by decide
example : collapseWs (pstr "a  b") = pstr "a b" := by decide
example : split_at_word_boundary (pstr "hello world foo") 11 = pstr "hello" := by decide


/-! ## Basic lemmas about the Python string primitives -/

theorem mem_of_getElem?_eq (l : List Char) (n : Nat) (a : Char)
    (h : l[n]? = some a) : a ∈ l := by
  obtain ⟨hlt, he⟩ := List.getElem?_eq_some_iff.mp h
  exact he ▸ List.getElem_mem hlt

theorem head?_dropWhile_false (p : Char → Bool) :
    ∀ (l : List Char) (a : Char), (l.dropWhile p).head? = some a → p a = false := by
  intro l
  induction l with
  | nil => intro a h; simp at h
  | cons c cs ih =>
    intro a h
    rw [List.dropWhile_cons] at h
    by_cases hc : p c = true
    · rw [if_pos hc] at h; exact ih a h
    · rw [if_neg hc] at h
      simp only [List.head?_cons, Option.some.injEq] at h
      exact h ▸ Bool.eq_false_iff.mpr hc

theorem pyStripEnd_isPrefix (s : List Char) : pyStripEnd s <+: s := by
  have h : (s.reverse.dropWhile isPySpace) <:+ s.reverse :=
    List.dropWhile_suffix isPySpace
  unfold pyStripEnd
  rw [← List.reverse_suffix, List.reverse_reverse]
  exact h

theorem head?_pyStripEnd (s : List Char) (a : Char)
    (h : (pyStripEnd s).head? = some a) : s.head? = some a := by
  obtain ⟨t, ht⟩ := pyStripEnd_isPrefix s
  rw [← ht, List.head?_append, h]
  rfl

theorem head?_pyStrip_false (s : List Char) (a : Char)
    (h : (pyStrip s).head? = some a) : isPySpace a = false := by
  unfold pyStrip at h
  exact head?_dropWhile_false isPySpace s a (head?_pyStripEnd _ a h)

theorem pyStrip_nil : pyStrip [] = [] := rfl

theorem pyStripEnd_length_le (s : List Char) : (pyStripEnd s).length ≤ s.length := by
  unfold pyStripEnd
  calc ((s.reverse.dropWhile isPySpace).reverse).length
      = (s.reverse.dropWhile isPySpace).length := List.length_reverse _
    _ ≤ s.reverse.length := (List.dropWhile_sublist isPySpace).length_le
    _ = s.length := List.length_reverse _

theorem pyStrip_length_le (s : List Char) : (pyStrip s).length ≤ s.length :=
  le_trans (pyStripEnd_length_le _) (List.dropWhile_sublist isPySpace).length_le

theorem pyStrip_cons_space (c : Char) (s : List Char) (h : isPySpace c = true) :
    pyStrip (c :: s) = pyStrip s := by
  unfold pyStrip
  rw [List.dropWhile_cons_of_pos h]

/-! ## Lemmas about `rfindIdx` (Python `str.rfind`) -/

theorem rfindIdx_some_getElem (c : Char) :
    ∀ (s : List Char) (k : Nat), rfindIdx c s = some k → s[k]? = some c := by
  intro s
  induction s with
  | nil => intro k h; simp [rfindIdx] at h
  | cons a tl ih =>
    intro k h
    cases hh : rfindIdx c tl with
    | some i =>
      simp only [rfindIdx, hh, Option.some.injEq] at h
      subst h
      rw [List.getElem?_cons_succ]
      exact ih i hh
    | none =>
      simp only [rfindIdx, hh] at h
      by_cases hac : a = c
      · rw [if_pos hac] at h
        simp only [Option.some.injEq] at h
        subst h
        rw [List.getElem?_cons_zero, hac]
      · rw [if_neg hac] at h
        exact absurd h (by simp)

theorem rfindIdx_lt_length (c : Char) (s : List Char) (k : Nat)
    (h : rfindIdx c s = some k) : k < s.length := by
  by_contra hk
  push_neg at hk
  have h2 := rfindIdx_some_getElem c s k h
  rw [List.getElem?_eq_none hk] at h2
  exact Option.noConfusion h2

theorem rfindIdx_eq_none_iff (c : Char) (s : List Char) :
    rfindIdx c s = none ↔ c ∉ s := by
  induction s with
  | nil => simp [rfindIdx]
  | cons a tl ih =>
    cases hh : rfindIdx c tl with
    | some i =>
      simp only [rfindIdx, hh]
      have hmem : c ∈ tl := mem_of_getElem?_eq tl i c (rfindIdx_some_getElem c tl i hh)
      simp [hmem]
    | none =>
      have htl : c ∉ tl := ih.mp hh
      simp only [rfindIdx, hh]
      by_cases hac : a = c
      · subst hac
        simp
      · simp [htl, Ne.symm hac, hac]

theorem rfindIdx_last (c : Char) :
    ∀ (s : List Char) (k : Nat), rfindIdx c s = some k →
      ∀ j, k < j → s[j]? ≠ some c := by
  intro s
  induction s with
  | nil => intro k h; simp [rfindIdx] at h
  | cons a tl ih =>
    intro k h j hj
    cases hh : rfindIdx c tl with
    | some i =>
      simp only [rfindIdx, hh, Option.some.injEq] at h
      subst h
      obtain ⟨j', rfl⟩ : ∃ j', j = j' + 1 :=
        ⟨j - 1, (Nat.succ_pred_eq_of_pos (Nat.lt_of_le_of_lt (Nat.zero_le _) hj)).symm⟩
      rw [List.getElem?_cons_succ]
      exact ih i hh j' (Nat.lt_of_succ_lt_succ hj)
    | none =>
      simp only [rfindIdx, hh] at h
      by_cases hac : a = c
      · rw [if_pos hac] at h
        simp only [Option.some.injEq] at h
        subst h
        obtain ⟨j', rfl⟩ : ∃ j', j = j' + 1 :=
          ⟨j - 1, (Nat.succ_pred_eq_of_pos hj).symm⟩
        rw [List.getElem?_cons_succ]
        intro hcon
        exact (rfindIdx_eq_none_iff c tl).mp hh (mem_of_getElem?_eq tl j' c hcon)
      · rw [if_neg hac] at h
        exact absurd h (by simp)

theorem rfindIdx_eq_some_of (c : Char) :
    ∀ (s : List Char) (k : Nat), s[k]? = some c →
      (∀ j, k < j → s[j]? ≠ some c) → rfindIdx c s = some k := by
  intro s
  induction s with
  | nil => intro k hk; simp at hk
  | cons a tl ih =>
    intro k hk hlast
    cases k with
    | zero =>
      rw [List.getElem?_cons_zero, Option.some.injEq] at hk
      cases hh : rfindIdx c tl with
      | some i =>
        exfalso
        apply hlast (i + 1) (Nat.succ_pos i)
        rw [List.getElem?_cons_succ]
        exact rfindIdx_some_getElem c tl i hh
      | none =>
        simp only [rfindIdx, hh]
        rw [if_pos hk]
    | succ k' =>
      rw [List.getElem?_cons_succ] at hk
      have hlast' : ∀ j, k' < j → tl[j]? ≠ some c := by
        intro j hj
        have := hlast (j + 1) (Nat.succ_lt_succ hj)
        rwa [List.getElem?_cons_succ] at this
      have := ih k' hk hlast'
      simp only [rfindIdx, this]

/-! ## Lemmas about the word-boundary splitter and the re-chunking loop -/

theorem split_at_of_le (text : List Char) (m : Nat) (h : text.length ≤ m) :
    split_at_word_boundary text m = text := by
  unfold split_at_word_boundary
  rw [if_pos h]

theorem split_at_length_le_m (text : List Char) (m : Nat) (h : m < text.length) :
    (split_at_word_boundary text m).length ≤ m := by
  unfold split_at_word_boundary
  rw [if_neg (not_le.mpr h)]
  cases hr : rfindIdx ' ' (text.take m) with
  | none =>
    rw [List.length_take]
    exact min_le_left _ _
  | some k =>
    have hkm : k < m := by
      have h2 := rfindIdx_lt_length _ _ _ hr
      rw [List.length_take] at h2
      exact lt_of_lt_of_le h2 (min_le_left _ _)
    rw [List.length_take]
    exact le_trans (min_le_left _ _) (le_of_lt hkm)

theorem splitChunks_next_lt (m : Nat) (t : List Char) (hm : 1 ≤ m) (ht : t ≠ []) :
    (pyStrip (t.drop (split_at_word_boundary t m).length)).length < t.length := by
  by_cases h : t.length ≤ m
  · rw [split_at_of_le t m h, List.drop_length, pyStrip_nil]
    simpa using List.length_pos.mpr ht
  · push_neg at h
    have hpos : 0 < t.length := lt_trans (Nat.lt_of_lt_of_le Nat.zero_lt_one hm) h
    unfold split_at_word_boundary
    rw [if_neg (not_le.mpr h)]
    cases hr : rfindIdx ' ' (t.take m) with
    | none =>
      have hlen : (t.take m).length = m := by
        rw [List.length_take]; exact min_eq_left (le_of_lt h)
      rw [hlen]
      calc (pyStrip (t.drop m)).length ≤ (t.drop m).length := pyStrip_length_le _
        _ = t.length - m := List.length_drop m t
        _ < t.length := Nat.sub_lt hpos hm
    | some k =>
      have hkm : k < m := by
        have h2 := rfindIdx_lt_length _ _ _ hr
        rw [List.length_take] at h2
        exact lt_of_lt_of_le h2 (min_le_left _ _)
      have hk2 : (t.take k).length = k := by
        rw [List.length_take]; exact min_eq_left (le_of_lt (lt_trans hkm h))
      rw [hk2]
      cases k with
      | zero =>
        rw [List.drop_zero]
        have h0 : t[0]? = some ' ' := by
          have h3 := rfindIdx_some_getElem _ _ _ hr
          rwa [List.getElem?_take, if_pos (Nat.lt_of_lt_of_le Nat.zero_lt_one hm)] at h3
        obtain ⟨c0, tl, rfl⟩ : ∃ c0 tl, t = c0 :: tl := by
          cases t with
          | nil => exact absurd rfl ht
          | cons a b => exact ⟨a, b, rfl⟩
        rw [List.getElem?_cons_zero, Option.some.injEq] at h0
        subst h0
        rw [pyStrip_cons_space _ _ (by decide)]
        calc (pyStrip tl).length ≤ tl.length := pyStrip_length_le _
          _ < (' ' :: tl).length := by simp [List.length_cons]
      | succ k' =>
        calc (pyStrip (t.drop (k' + 1))).length
            ≤ (t.drop (k' + 1)).length := pyStrip_length_le _
          _ = t.length - (k' + 1) := List.length_drop _ _
          _ < t.length := Nat.sub_lt hpos (Nat.succ_pos k')

theorem splitChunksF_fuel (m : Nat) (hm : 1 ≤ m) :
    ∀ (fuel : Nat) (t : List Char), t.length ≤ fuel →
      splitChunksF m fuel t = splitChunksF m t.length t := by
  intro fuel
  induction fuel using Nat.strong_induction_on with
  | _ fuel IH =>
    intro t ht
    cases t with
    | nil => cases fuel <;> rfl
    | cons c cs =>
      obtain ⟨f, rfl⟩ : ∃ f, fuel = f + 1 := by
        cases fuel with
        | zero => simp [List.length_cons] at ht
        | succ f => exact ⟨f, rfl⟩
      have hlt := splitChunks_next_lt m (c :: cs) hm (by simp)
      have e1 : splitChunksF m (f + 1) (c :: cs)
          = split_at_word_boundary (c :: cs) m ::
            splitChunksF m f
              (pyStrip ((c :: cs).drop (split_at_word_boundary (c :: cs) m).length)) := rfl
      have e2 : splitChunksF m ((c :: cs).length) (c :: cs)
          = split_at_word_boundary (c :: cs) m ::
            splitChunksF m cs.length
              (pyStrip ((c :: cs).drop (split_at_word_boundary (c :: cs) m).length)) := rfl
      have h1 : cs.length + 1 ≤ f + 1 := by simpa using ht
      have h2 : (pyStrip ((c :: cs).drop (split_at_word_boundary (c :: cs) m).length)).length
          ≤ cs.length := by
        simp only [List.length_cons] at hlt
        omega
      rw [e1, e2]
      congr 1
      rw [IH f (Nat.lt_succ_self f) _ (le_trans h2 (by omega))]
      rw [IH cs.length (by omega) _ h2]

theorem splitChunks_nil (m : Nat) : splitChunks m [] = [] := rfl

theorem splitChunks_cons_eq (m : Nat) (t : List Char) (hm : 1 ≤ m) (ht : t ≠ []) :
    splitChunks m t = split_at_word_boundary t m ::
      splitChunks m (pyStrip (t.drop (split_at_word_boundary t m).length)) := by
  obtain ⟨c, cs, rfl⟩ : ∃ c cs, t = c :: cs := by
    cases t with
    | nil => exact absurd rfl ht
    | cons a b => exact ⟨a, b, rfl⟩
  have hlt := splitChunks_next_lt m (c :: cs) hm (by simp)
  unfold splitChunks
  have e2 : splitChunksF m ((c :: cs).length) (c :: cs)
      = split_at_word_boundary (c :: cs) m ::
        splitChunksF m cs.length
          (pyStrip ((c :: cs).drop (split_at_word_boundary (c :: cs) m).length)) := rfl
  rw [e2]
  congr 1
  apply splitChunksF_fuel m hm
  simp only [List.length_cons] at hlt
  omega

theorem splitChunks_chunk_le (m : Nat) (hm : 1 ≤ m) :
    ∀ (n : Nat) (t : List Char), t.length ≤ n → ∀ c ∈ splitChunks m t, c.length ≤ m := by
  intro n
  induction n with
  | zero =>
    intro t ht c hc
    have hnil : t = [] := List.length_eq_zero.mp (Nat.le_zero.mp ht)
    subst hnil
    rw [splitChunks_nil] at hc
    simp at hc
  | succ n ih =>
    intro t ht c hc
    by_cases hnil : t = []
    · subst hnil
      rw [splitChunks_nil] at hc
      simp at hc
    · rw [splitChunks_cons_eq m t hm hnil] at hc
      cases List.mem_cons.mp hc with
      | inl h =>
        by_cases hlen : t.length ≤ m
        · rw [h, split_at_of_le t m hlen]
          exact hlen
        · rw [h]
          exact split_at_length_le_m t m (not_le.mp hlen)
      | inr h =>
        have hn := splitChunks_next_lt m t hm hnil
        exact ih _ (by omega) c h

theorem splitChunks_chunk_ne_nil (m : Nat) (hm : 1 ≤ m) :
    ∀ (n : Nat) (t : List Char), t.length ≤ n →
      (∀ a, t.head? = some a → isPySpace a = false) →
      ∀ c ∈ splitChunks m t, c ≠ [] := by
  intro n
  induction n with
  | zero =>
    intro t ht _ c hc
    have hnil : t = [] := List.length_eq_zero.mp (Nat.le_zero.mp ht)
    subst hnil
    rw [splitChunks_nil] at hc
    simp at hc
  | succ n ih =>
    intro t ht hhead c hc
    by_cases hnil : t = []
    · subst hnil
      rw [splitChunks_nil] at hc
      simp at hc
    · rw [splitChunks_cons_eq m t hm hnil] at hc
      cases List.mem_cons.mp hc with
      | inl h =>
        subst h
        unfold split_at_word_boundary
        by_cases hlen : t.length ≤ m
        · rw [if_pos hlen]; exact hnil
        · rw [if_neg hlen]
          cases hr : rfindIdx ' ' (t.take m) with
          | none =>
            intro hcon
            rcases List.take_eq_nil_iff.mp hcon with h0 | h0
            · omega
            · exact hnil h0
          | some k =>
            cases k with
            | zero =>
              exfalso
              have h0 : t[0]? = some ' ' := by
                have h3 := rfindIdx_some_getElem _ _ _ hr
                rwa [List.getElem?_take, if_pos (by omega : (0 : Nat) < m)] at h3
              have hh : t.head? = some ' ' := by
                rw [List.head?_eq_getElem?]; exact h0
              have h4 := hhead ' ' hh
              exact absurd h4 (by decide)
            | succ k' =>
              intro hcon
              rcases List.take_eq_nil_iff.mp hcon with h0 | h0
              · exact Nat.succ_ne_zero k' h0
              · exact hnil h0
      | inr h =>
        have hn := splitChunks_next_lt m t hm hnil
        exact ih _ (by omega) (fun a ha => head?_pyStrip_false _ a ha) c h

/-- **C6** For every reply text, each outbound chunk produced by the
400-character splitter has length at most 400; when the text is longer
than 400 characters and its first 400 characters contain no space, the
cut is made exactly at position 400 (hard cut); otherwise the cut is
made at the last space within the first 400 characters. -/
theorem C6_chunk_bounds : ∀ t : List Char,
    (∀ c ∈ splitChunks 400 t, c.length ≤ 400) ∧
    (400 < t.length →
      ((' ' ∉ t.take 400) → split_at_word_boundary t 400 = t.take 400) ∧
      (∀ k, k < 400 → t[k]? = some ' ' →
        (∀ j, k < j → j < 400 → t[j]? ≠ some ' ') →
        split_at_word_boundary t 400 = t.take k)) := by
  intro t
  refine ⟨fun c hc => splitChunks_chunk_le 400 (by omega) t.length t (le_refl _) c hc, ?_⟩
  intro hlen
  constructor
  · intro hns
    unfold split_at_word_boundary
    rw [if_neg (not_le.mpr hlen)]
    rw [(rfindIdx_eq_none_iff _ _).mpr hns]
  · intro k hk hget hlast
    unfold split_at_word_boundary
    rw [if_neg (not_le.mpr hlen)]
    have hr : rfindIdx ' ' (t.take 400) = some k := by
      apply rfindIdx_eq_some_of
      · rw [List.getElem?_take, if_pos hk]
        exact hget
      · intro j hj
        rw [List.getElem?_take]
        by_cases hj4 : j < 400
        · rw [if_pos hj4]
          exact hlast j hj hj4
        · rw [if_neg hj4]
          simp
    rw [hr]

/-- Witness for `C6_chunk_bounds`: the single chunk of a short text is
within the budget, and a 401-character spaceless text is hard-cut at
400. -/
theorem C6_chunk_bounds_witness :
    (pstr "hello world").length ≤ 400 ∧
    split_at_word_boundary (List.replicate 401 'a') 400
      = (List.replicate 401 'a').take 400 :=
  ⟨(C6_chunk_bounds (pstr "hello world")).1 (pstr "hello world") (by decide),
   ((C6_chunk_bounds (List.replicate 401 'a')).2 (by decide)).1 (by decide)⟩

/-- **C10** For every flattened reply, the outbound re-chunking loop
terminates (any fuel beyond the remaining length gives the same finite
chunk sequence), every chunk it produces is non-empty (the stripped
remainder never starts with a space, so the splitter never cuts at
index 0), and an empty or whitespace-only reply yields zero chunks and
therefore no PRIVMSG send. -/
theorem C10_rechunk_total : ∀ reply : List Char,
    (∀ k, splitChunksF 400 ((pyStrip reply).length + k) (pyStrip reply)
        = splitChunks 400 (pyStrip reply)) ∧
    (∀ c ∈ splitChunks 400 (pyStrip reply), c ≠ []) ∧
    ((∀ c ∈ reply, isPySpace c = true) →
      splitChunks 400 (pyStrip reply) = [] ∧
      ∀ channel user ok,
        sendChunks channel user ok 0 (splitChunks 400 (pyStrip reply)) = []) := by
  intro reply
  refine ⟨?_, ?_, ?_⟩
  · intro k
    exact splitChunksF_fuel 400 (by omega) _ _ (Nat.le_add_right _ _)
  · intro c hc
    exact splitChunks_chunk_ne_nil 400 (by omega) (pyStrip reply).length _ (le_refl _)
      (fun a ha => head?_pyStrip_false _ a ha) c hc
  · intro hall
    have hnil : pyStrip reply = [] := by
      unfold pyStrip
      rw [List.dropWhile_eq_nil_iff.mpr hall]
      rfl
    rw [hnil]
    exact ⟨rfl, fun _ _ _ => rfl⟩

/-- Witness for `C10_rechunk_total`: extra fuel changes nothing on a
whitespace-only reply, the chunk of reply `"hi"` is non-empty, and a
whitespace-only reply produces no chunks and no sends. -/
theorem C10_rechunk_total_witness :
    splitChunksF 400 ((pyStrip (pstr "  ")).length + 5) (pyStrip (pstr "  "))
      = splitChunks 400 (pyStrip (pstr "  ")) ∧
    pstr "hi" ≠ ([] : List Char) ∧
    (splitChunks 400 (pyStrip (pstr "  ")) = [] ∧
      ∀ channel user ok,
        sendChunks channel user ok 0 (splitChunks 400 (pyStrip (pstr "  "))) = []) :=
  ⟨(C10_rechunk_total (pstr "  ")).1 5,
   (C10_rechunk_total (pstr "hi")).2.1 (pstr "hi") (by decide),
   (C10_rechunk_total (pstr "  ")).2.2 (by decide)⟩

/-! ## Lemmas about the conversation store -/

theorem respondStep_eq (hist : List Entry) (m r : String) :
    respondStep hist m r =
      if (hist ++ pairEntries (m, r)).length > 20
      then (hist ++ pairEntries (m, r)).drop ((hist ++ pairEntries (m, r)).length - 19)
      else hist ++ pairEntries (m, r) := rfl

theorem suffix_append_right_mono {α : Type} {l₁ l₂ t : List α}
    (h : l₁ <:+ l₂) : l₁ ++ t <:+ l₂ ++ t := by
  obtain ⟨w, hw⟩ := h
  exact ⟨w, by rw [← hw, List.append_assoc]⟩

theorem respondStep_suffix (hist : List Entry) (m r : String) :
    respondStep hist m r <:+ hist ++ pairEntries (m, r) := by
  rw [respondStep_eq]
  by_cases h : (hist ++ pairEntries (m, r)).length > 20
  · rw [if_pos h]
    exact List.drop_suffix _ _
  · rw [if_neg h]

theorem foldHist_suffix : ∀ (ps : List (String × String)) (hist : List Entry),
    foldHist hist ps <:+ hist ++ appendAll ps := by
  intro ps
  induction ps with
  | nil =>
    intro hist
    show hist <:+ hist ++ []
    rw [List.append_nil]
  | cons p ps ih =>
    intro hist
    show foldHist (respondStep hist p.1 p.2) ps <:+ hist ++ appendAll (p :: ps)
    have h1 := ih (respondStep hist p.1 p.2)
    have h2 : respondStep hist p.1 p.2 ++ appendAll ps
        <:+ (hist ++ pairEntries (p.1, p.2)) ++ appendAll ps :=
      suffix_append_right_mono (respondStep_suffix hist p.1 p.2)
    have h3 := List.IsSuffix.trans h1 h2
    rw [List.append_assoc] at h3
    exact h3

theorem respondStep_length (hist : List Entry) (m r : String) :
    (respondStep hist m r).length =
      if hist.length + 2 > 20 then 19 else hist.length + 2 := by
  rw [respondStep_eq]
  have hlen : (hist ++ pairEntries (m, r)).length = hist.length + 2 := by
    simp [pairEntries]
  by_cases h : (hist ++ pairEntries (m, r)).length > 20
  · rw [if_pos h, List.length_drop, hlen]
    rw [hlen] at h
    rw [if_pos (by omega)]
    omega
  · rw [if_neg h, hlen]
    rw [hlen] at h
    rw [if_neg (by omega)]

theorem foldHist_length : ∀ (ps : List (String × String)) (hist : List Entry),
    (foldHist hist ps).length = lenFold hist.length ps.length := by
  intro ps
  induction ps with
  | nil => intro hist; rfl
  | cons p ps ih =>
    intro hist
    show (foldHist (respondStep hist p.1 p.2) ps).length = lenFold hist.length (ps.length + 1)
    rw [ih]
    have he : lenFold hist.length (ps.length + 1)
        = lenFold (if hist.length + 2 > 20 then 19 else hist.length + 2) ps.length := rfl
    rw [he, respondStep_length]

theorem appendAll_length : ∀ ps : List (String × String),
    (appendAll ps).length = 2 * ps.length := by
  intro ps
  induction ps with
  | nil => rfl
  | cons p ps ih =>
    show (pairEntries p ++ appendAll ps).length = 2 * (ps.length + 1)
    rw [List.length_append, ih]
    simp [pairEntries]
    omega

theorem eq_drop_of_suffix {α : Type} {l t : List α} (h : l <:+ t) :
    l = t.drop (t.length - l.length) := by
  obtain ⟨w, hw⟩ := h
  subst hw
  rw [List.length_append]
  have he : w.length + l.length - l.length = w.length := by omega
  rw [he, List.drop_left]

theorem appendAll_role : ∀ ps : List (String × String),
    ∀ e ∈ appendAll ps, e.role ≠ Role.system := by
  intro ps
  induction ps with
  | nil => intro e he; simp [appendAll] at he
  | cons p ps ih =>
    intro e he
    rcases List.mem_append.mp he with h | h
    · simp only [pairEntries, List.mem_cons, List.mem_singleton] at h
      rcases h with h | h | h
      · subst h; simp
      · subst h; simp
      · simp at h
    · exact ih e h

/-- **C7** After appending 25 user/assistant pairs (50 entries) for one
identity starting from an empty history, the stored history has length
at most 19 and equals exactly the last 19 appended entries in append
order; no stored entry carries the system role, and the fixed system
directive is prepended fresh at the head of every responder call's
context. -/
theorem C7_history_bound : ∀ ps : List (String × String), ps.length = 25 →
    (foldHist [] ps).length ≤ 19 ∧
    foldHist [] ps = (appendAll ps).drop 31 ∧
    (∀ e ∈ foldHist [] ps, e.role ≠ Role.system) ∧
    (∀ (admin : Entry) (hist : List Entry) (msg : String),
      (buildContext admin hist msg).head? = some admin) := by
  intro ps hps
  have hlen : (foldHist [] ps).length = 19 := by
    rw [foldHist_length, hps]
    rfl
  have hsuff : foldHist [] ps <:+ appendAll ps := by
    have h := foldHist_suffix ps []
    simpa using h
  have happ : (appendAll ps).length = 50 := by rw [appendAll_length, hps]
  refine ⟨by omega, ?_, ?_, ?_⟩
  · have hd := eq_drop_of_suffix hsuff
    rw [happ, hlen] at hd
    exact hd
  · intro e he
    exact appendAll_role ps e (hsuff.sublist.subset he)
  · intro admin hist msg
    rfl

/-- Witness for `C7_history_bound` on 25 concrete pairs. -/
theorem C7_history_bound_witness :
    (foldHist [] (List.replicate 25 ("u", "a"))).length ≤ 19 ∧
    foldHist [] (List.replicate 25 ("u", "a"))
      = (appendAll (List.replicate 25 ("u", "a"))).drop 31 :=
  ⟨(C7_history_bound (List.replicate 25 ("u", "a")) (by decide)).1,
   (C7_history_bound (List.replicate 25 ("u", "a")) (by decide)).2.1⟩

/-! ## Lemmas about the outbound send loop -/

theorem buildMsgs_tail_plain (channel user : List Char) :
    ∀ (cs : List (List Char)) (i : Nat), 1 ≤ i →
      buildMsgs channel user i cs = cs.map (privPlain channel) := by
  intro cs
  induction cs with
  | nil => intro i _; rfl
  | cons c cs ih =>
    intro i hi
    show (if i = 0 then privAddr channel user c else privPlain channel c) ::
        buildMsgs channel user (i + 1) cs = _
    rw [if_neg (by omega), ih (i + 1) (by omega)]
    rfl

theorem buildMsgs_zero (channel user : List Char) (chunks : List (List Char)) :
    buildMsgs channel user 0 chunks =
      (match chunks with
       | [] => []
       | c :: cs => privAddr channel user c :: cs.map (privPlain channel)) := by
  cases chunks with
  | nil => rfl
  | cons c cs =>
    show (if 0 = 0 then privAddr channel user c else privPlain channel c) ::
        buildMsgs channel user 1 cs = _
    rw [if_pos rfl, buildMsgs_tail_plain channel user cs 1 (by omega)]

theorem sendChunks_take (channel user : List Char) (ok : Nat → Bool) (i : Nat)
    (hfail : ok i = false) :
    ∀ (chunks : List (List Char)) (s : Nat), s ≤ i →
      (∀ j, s ≤ j → j < i → ok j = true) →
      sendChunks channel user ok s chunks
        = (buildMsgs channel user s chunks).take (i - s) := by
  intro chunks
  induction chunks with
  | nil => intro s _ _; simp [sendChunks, buildMsgs]
  | cons c cs ih =>
    intro s hs hok
    by_cases hsi : s = i
    · subst hsi
      simp [sendChunks, hfail]
    · have hslt : s < i := lt_of_le_of_ne hs hsi
      have hoks : ok s = true := hok s (le_refl s) hslt
      obtain ⟨d, hd⟩ : ∃ d, i - s = d + 1 := ⟨i - s - 1, by omega⟩
      simp only [sendChunks, buildMsgs, hoks, if_true]
      rw [hd, List.take_succ_cons]
      congr 1
      rw [ih (s + 1) (by omega) (fun j hj1 hj2 => hok j (by omega) hj2)]
      congr 1
      omega

/-- **C9** Only the first chunk's message carries the `<user>: ` address
decoration (later chunks are sent as plain PRIVMSGs), and when the send
of chunk `i` fails after sends `0..i-1` succeeded, exactly the first `i`
messages are delivered: nothing after the failure is sent, and the
chunks already sent stand. -/
theorem C9_first_chunk_decoration_partial_delivery :
    ∀ (channel user : List Char) (chunks : List (List Char)) (ok : Nat → Bool) (i : Nat),
      ok i = false → (∀ j, j < i → ok j = true) →
      sendChunks channel user ok 0 chunks = (buildMsgs channel user 0 chunks).take i ∧
      buildMsgs channel user 0 chunks =
        (match chunks with
         | [] => []
         | c :: cs => privAddr channel user c :: cs.map (privPlain channel)) := by
  intro channel user chunks ok i hfail hok
  constructor
  · have h := sendChunks_take channel user ok i hfail chunks 0 (Nat.zero_le i)
      (fun j _ hj => hok j hj)
    simpa using h
  · exact buildMsgs_zero channel user chunks

/-- Witness for `C9_first_chunk_decoration_partial_delivery`: with three
chunks and the third send failing, exactly the first two messages go
out, and only the first is user-decorated. -/
theorem C9_first_chunk_decoration_partial_delivery_witness :
    (sendChunks (pstr "#chan") (pstr "alice") (fun n => decide (n < 2)) 0
        [pstr "aa", pstr "bb", pstr "cc"]
      = (buildMsgs (pstr "#chan") (pstr "alice") 0
          [pstr "aa", pstr "bb", pstr "cc"]).take 2) ∧
    buildMsgs (pstr "#chan") (pstr "alice") 0 [pstr "aa", pstr "bb", pstr "cc"]
      = privAddr (pstr "#chan") (pstr "alice") (pstr "aa")
          :: [pstr "bb", pstr "cc"].map (privPlain (pstr "#chan")) :=
  C9_first_chunk_decoration_partial_delivery (pstr "#chan") (pstr "alice")
    [pstr "aa", pstr "bb", pstr "cc"] (fun n => decide (n < 2)) 2 (by decide)
    (fun j hj => decide_eq_true hj)

/-! ## Lemmas about `handle_message` and the read loop -/

theorem isPrefixOf_append_self (a b : List Char) : a.isPrefixOf (a ++ b) = true := by
  induction a with
  | nil => simp [List.isPrefixOf]
  | cons c cs ih => simp [List.isPrefixOf, ih]

theorem sendChunks_msg_isPrefix (ch u : List Char) (ok : Nat → Bool) :
    ∀ (chunks : List (List Char)) (s : Nat) (m : List Char),
      m ∈ sendChunks ch u ok s chunks →
      (pstr "PRIVMSG " ++ ch ++ pstr " :").isPrefixOf m = true := by
  intro chunks
  induction chunks with
  | nil => intro s m hm; simp [sendChunks] at hm
  | cons c cs ih =>
    intro s m hm
    simp only [sendChunks] at hm
    by_cases hok : ok s = true
    · rw [if_pos hok] at hm
      rcases List.mem_cons.mp hm with h | h
      · subst h
        by_cases hs : s = 0
        · rw [if_pos hs]
          have he : privAddr ch u c
              = (pstr "PRIVMSG " ++ ch ++ pstr " :") ++ (u ++ (pstr ": " ++ c)) := by
            simp [privAddr, List.append_assoc]
          rw [he]
          exact isPrefixOf_append_self _ _
        · rw [if_neg hs]
          have he : privPlain ch c = (pstr "PRIVMSG " ++ ch ++ pstr " :") ++ c := by
            simp [privPlain, List.append_assoc]
          rw [he]
          exact isPrefixOf_append_self _ _
      · exact ih (s + 1) m h
    · rw [if_neg hok] at hm
      simp at hm

/-- **C1** (code bug) The framer extracts the complete lines `a`, `b`
from the first block, but only the last extracted line is ever passed to
`handle_message` (the call sits outside the `for` loop, line 174), and a
later read holding no complete line passes the previous line to
`handle_message` a second time. -/
theorem C1_dispatch_skips_and_repeats :
    (splitOnSeq (pstr "\r\n") (pstr "a\r\nb\r\n")).dropLast = [pstr "a", pstr "b"] ∧
    runListen (pstr "bot") (fun _ _ => []) (fun _ => true) ⟨[], none⟩
      [pstr "a\r\nb\r\n"] = [pstr "b"] ∧
    runListen (pstr "bot") (fun _ _ => []) (fun _ => true) ⟨[], none⟩
      [pstr "x\r\n", pstr "par"] = [pstr "x", pstr "x"] := by
  refine ⟨by decide, by decide, by decide⟩

/-- Counterexample to **C2** as stated: a bare `PING` line and an
`INVITE` line with fewer than 4 whitespace tokens are not silently
ignored — their processing raises `IndexError` (at `line.split()[1]`
resp. `parts[3]`). -/
theorem C2_malformed_counterexample :
    processLine (pstr "PING") = ([], some PyErr.indexError) ∧
    processLine (pstr "INVITE x") = ([], some PyErr.indexError) := by
  refine ⟨by decide, by decide⟩

/-- **C2** (amended) A line with fewer than four space-limited parts or
whose second part is not `PRIVMSG` yields no responder call and no
outbound send from `handle_message`; a line that triggers neither the
PING nor the INVITE branch is processed by the read loop's per-line body
without error and without action; but a bare `PING`, or an
`INVITE`-containing line with fewer than four whitespace tokens, raises
`IndexError` inside the read loop (caught by the loop's blanket
handler). -/
theorem C2_malformed_ignored_amended :
    (∀ (nick : List Char) (f : List Char → List Char → List Char)
        (ok : Nat → Bool) (message : List Char),
      ((pySplitLimit ' ' 3 message).length < 4 ∨
        (pySplitLimit ' ' 3 message).getD 1 [] ≠ PRIVMSGtok) →
      handleMessage nick f ok message = ([], [])) ∧
    (∀ line : List Char, (pstr "PING").isPrefixOf line = false →
      containsSeq (pstr "INVITE") line = false →
      processLine line = ([], none)) ∧
    (processLine (pstr "PING") = ([], some PyErr.indexError) ∧
      processLine (pstr "INVITE x") = ([], some PyErr.indexError)) := by
  refine ⟨?_, ?_, by decide, by decide⟩
  · intro nick f ok message h
    simp only [handleMessage]
    rw [if_pos h]
  · intro line h1 h2
    simp [processLine, pongActions, inviteActions, h1, h2]

/-- Witness for `C2_malformed_ignored_amended` at concrete inputs. -/
theorem C2_malformed_ignored_amended_witness :
    handleMessage (pstr "bot") (fun _ _ => []) (fun _ => true) (pstr "hello") = ([], []) ∧
    processLine (pstr "hello") = ([], none) :=
  ⟨C2_malformed_ignored_amended.1 (pstr "bot") (fun _ _ => []) (fun _ => true)
      (pstr "hello") (by decide),
   C2_malformed_ignored_amended.2.1 (pstr "hello") (by decide) (by decide)⟩

/-- Counterexample to **C3** as stated: the line `PING :server1`
produces the action `PONG :server1` — the leading colon of the token is
kept — not `PONG server1`. -/
theorem C3_pong_counterexample :
    (listenIter (pstr "bot") (fun _ _ => []) (fun _ => true) ⟨[], none⟩
        (pstr "PING :server1\r\n")).sends = [pstr "PONG :server1"] ∧
    pstr "PONG :server1" ≠ pstr "PONG server1" := by
  refine ⟨by decide, by decide⟩

/-- **C3** (amended) For the input line `PING :server1`, processing
produces exactly one outbound action, the wire command `PONG :server1`
(the second whitespace token taken verbatim, leading colon included),
and no responder call. -/
theorem C3_pong_action :
    (listenIter (pstr "bot") (fun _ _ => []) (fun _ => true) ⟨[], none⟩
        (pstr "PING :server1\r\n")).sends = [pstr "PONG :server1"] ∧
    (listenIter (pstr "bot") (fun _ _ => []) (fun _ => true) ⟨[], none⟩
        (pstr "PING :server1\r\n")).calls = [] := by
  refine ⟨by decide, by decide⟩

/-- **C4** (code bug) Invoking the hot-reload callback with a record
containing `openai_api_key` raises `TypeError` (the `ChatGPTBot` call at
line 120 passes two of the three required constructor arguments), so the
responder keeps its old api_key, admin_prompt and chat_params. -/
theorem C4_reload_typeerror : ∀ (st : IRCState) (new_config : Config),
    new_config.openai_api_key.isSome = true →
    (update_config st new_config).2 = some PyErr.typeError ∧
    (update_config st new_config).1.chatgpt_bot = st.chatgpt_bot ∧
    (update_config st new_config).1.admin_prompt = st.admin_prompt ∧
    (update_config st new_config).1.chat_params = st.chat_params := by
  intro st cfg h
  simp [update_config, h]

/-- Witness for `C4_reload_typeerror` on a concrete full replacement
record. -/
theorem C4_reload_typeerror_witness :
    (update_config ⟨"a", [], "bot", ⟨"k", "a", []⟩, none⟩
        ⟨some "k2", "a2", [("temperature", "1")], "bot2"⟩).2 = some PyErr.typeError ∧
    (update_config ⟨"a", [], "bot", ⟨"k", "a", []⟩, none⟩
        ⟨some "k2", "a2", [("temperature", "1")], "bot2"⟩).1.chatgpt_bot
      = GptState.mk "k" "a" [] :=
  ⟨(C4_reload_typeerror ⟨"a", [], "bot", ⟨"k", "a", []⟩, none⟩
      ⟨some "k2", "a2", [("temperature", "1")], "bot2"⟩ (by rfl)).1,
   (C4_reload_typeerror ⟨"a", [], "bot", ⟨"k", "a", []⟩, none⟩
      ⟨some "k2", "a2", [("temperature", "1")], "bot2"⟩ (by rfl)).2.1⟩

/-- Counterexample to **C8** as stated: for the line
`:alice!u@h PRIVMSG #chan :bot: hi` the code's responder call carries
the prompt `" hi"` (the code strips surrounding whitespace first and
leading colons after, so the space following the colon survives),
whereas the remainder with the trailing colon/whitespace stripped is
`"hi"`. -/
theorem C8_prompt_counterexample :
    (handleMessage (pstr "bot") (fun _ _ => pstr "ok") (fun _ => true)
        (pstr ":alice!u@h PRIVMSG #chan :bot: hi")).1
      = [(pstr "alice", pstr " hi")] ∧
    promptSpec (pstr "bot") (pstr "bot: hi") = pstr "hi" ∧
    pstr " hi" ≠ pstr "hi" := by
  refine ⟨by decide, by decide, by decide⟩

/-- **C8** (amended) A PRIVMSG is treated as addressed to the bot iff
its text starts with the configured nickname (case-sensitive); the
prompt is the text after the nickname stripped of surrounding
whitespace and then of leading colons.  The example line yields the
responder call `(alice, "hello there")`; a PRIVMSG whose target equals
the bot's nickname routes every outbound message to the sender `alice`;
a message whose text does not start with the nickname produces no call
and no send; and under the addressing guard the `split(nick, 1)[1]`
remainder is exactly the text after the nickname. -/
theorem C8_addressing_amended :
    (∀ (f : List Char → List Char → List Char) (ok : Nat → Bool),
      (handleMessage (pstr "bot") f ok
          (pstr ":alice!u@h PRIVMSG #chan :bot hello there")).1
        = [(pstr "alice", pstr "hello there")]) ∧
    (∀ (f : List Char → List Char → List Char) (ok : Nat → Bool) (msg : List Char),
      msg ∈ (handleMessage (pstr "bot") f ok
          (pstr ":alice!u@h PRIVMSG bot :bot hi")).2 →
      (pstr "PRIVMSG alice :").isPrefixOf msg = true) ∧
    (∀ (f : List Char → List Char → List Char) (ok : Nat → Bool) (message : List Char),
      (pstr "bot").isPrefixOf (msgContentOf message) = false →
      handleMessage (pstr "bot") f ok message = ([], [])) ∧
    (∀ (nick msg : List Char), nick ≠ [] → nick.isPrefixOf msg = true →
      splitOnceRest nick msg = msg.drop nick.length) := by
  refine ⟨?_, ?_, ?_, ?_⟩
  · intro f ok
    rfl
  · intro f ok msg hmem
    have hrfl : (handleMessage (pstr "bot") f ok
        (pstr ":alice!u@h PRIVMSG bot :bot hi")).2
        = sendChunks (pstr "alice") (pstr "alice") ok 0
            (splitChunks 400 (pyStrip (replaceNlSp
              (joinSp [f (pstr "alice") (pstr "hi")])))) := rfl
    rw [hrfl] at hmem
    have h2 := sendChunks_msg_isPrefix (pstr "alice") (pstr "alice") ok _ 0 msg hmem
    have heq : pstr "PRIVMSG " ++ pstr "alice" ++ pstr " :" = pstr "PRIVMSG alice :" := rfl
    rw [heq] at h2
    exact h2
  · intro f ok message h
    simp only [handleMessage]
    by_cases hg : (pySplitLimit ' ' 3 message).length < 4 ∨
        (pySplitLimit ' ' 3 message).getD 1 [] ≠ PRIVMSGtok
    · rw [if_pos hg]
    · rw [if_neg hg]
      have h' : ¬ ((pstr "bot").isPrefixOf
          (((pySplitLimit ' ' 3 message).getD 3 []).drop 1) = true) := by
        intro hc
        unfold msgContentOf at h
        rw [h] at hc
        exact Bool.noConfusion hc
      rw [if_neg h']
  · intro nick msg hn hp
    unfold splitOnceRest findSubstr
    rw [List.range_succ_eq_map]
    have h0 : nick.isPrefixOf (msg.drop 0) = true := by
      rw [List.drop_zero]; exact hp
    rw [@List.find?_cons_of_pos Nat (fun i => nick.isPrefixOf (msg.drop i)) 0
      (List.map Nat.succ (List.range msg.length)) h0]
    simp

/-- Witness for `C8_addressing_amended` at concrete inputs. -/
theorem C8_addressing_amended_witness :
    (pstr "PRIVMSG alice :").isPrefixOf (pstr "PRIVMSG alice :alice: ok") = true ∧
    handleMessage (pstr "bot") (fun _ _ => []) (fun _ => true) (pstr "hello") = ([], []) ∧
    splitOnceRest (pstr "bot") (pstr "bot hi") = (pstr "bot hi").drop (pstr "bot").length :=
  ⟨C8_addressing_amended.2.1 (fun _ _ => pstr "ok") (fun _ => true)
      (pstr "PRIVMSG alice :alice: ok") (by decide),
   C8_addressing_amended.2.2.1 (fun _ _ => []) (fun _ => true) (pstr "hello") (by decide),
   C8_addressing_amended.2.2.2 (pstr "bot") (pstr "bot hi") (by decide) (by decide)⟩

/-! ## Lemmas towards the chunk-rejoin property (C5) -/

theorem dropWhile_eq_self_of_head (p : Char → Bool) (l : List Char)
    (h : ∀ a, l.head? = some a → p a = false) : l.dropWhile p = l := by
  cases l with
  | nil => rfl
  | cons c cs =>
    rw [List.dropWhile_cons, h c rfl]
    simp

theorem mem_of_getLast?_eq (l : List Char) (a : Char) (h : l.getLast? = some a) :
    a ∈ l := by
  obtain ⟨l', rfl⟩ := List.getLast?_eq_some_iff.mp h
  simp

theorem pyStripEnd_eq_self (s : List Char)
    (h : ∀ a, s.getLast? = some a → isPySpace a = false) : pyStripEnd s = s := by
  unfold pyStripEnd
  rw [dropWhile_eq_self_of_head isPySpace s.reverse
    (fun a ha => h a (by rwa [List.head?_reverse] at ha))]
  exact List.reverse_reverse s

theorem pyStrip_eq_self (s : List Char)
    (hh : ∀ a, s.head? = some a → isPySpace a = false)
    (hl : ∀ a, s.getLast? = some a → isPySpace a = false) : pyStrip s = s := by
  unfold pyStrip
  rw [dropWhile_eq_self_of_head isPySpace s hh]
  exact pyStripEnd_eq_self s hl

theorem joinSp_cons_of_ne (w : List Char) (ws : List (List Char)) (h : ws ≠ []) :
    joinSp (w :: ws) = w ++ ' ' :: joinSp ws := by
  cases ws with
  | nil => exact absurd rfl h
  | cons v l => rfl

theorem joinSp_ne_nil (ws : List (List Char)) (hne : ws ≠ [])
    (hw : ∀ w ∈ ws, w ≠ []) : joinSp ws ≠ [] := by
  cases ws with
  | nil => exact absurd rfl hne
  | cons w l =>
    cases l with
    | nil => exact hw w (List.mem_cons_self w [])
    | cons v l' =>
      rw [joinSp_cons_of_ne w (v :: l') (by simp)]
      exact List.append_ne_nil_of_left_ne_nil (hw w (List.mem_cons_self w _)) _

theorem joinSp_head_nonspace (ws : List (List Char)) (hne : ws ≠ [])
    (hw : ∀ w ∈ ws, w ≠ []) (hs : ∀ w ∈ ws, ∀ c ∈ w, isPySpace c = false) :
    ∀ a, (joinSp ws).head? = some a → isPySpace a = false := by
  intro a ha
  cases ws with
  | nil => exact absurd rfl hne
  | cons w l =>
    have hwne : w ≠ [] := hw w (List.mem_cons_self w l)
    have hahead : w.head? = some a := by
      cases l with
      | nil => exact ha
      | cons v l' =>
        rw [joinSp_cons_of_ne w (v :: l') (by simp), List.head?_append] at ha
        cases hw0 : w.head? with
        | none =>
          obtain ⟨x, xs, rfl⟩ : ∃ x xs, w = x :: xs := by
            cases w with
            | nil => exact absurd rfl hwne
            | cons x xs => exact ⟨x, xs, rfl⟩
          simp at hw0
        | some w0 =>
          rw [hw0] at ha
          have hw0a : w0 = a := by simpa using ha
          exact congrArg some hw0a
    obtain ⟨ys, rfl⟩ := List.head?_eq_some_iff.mp hahead
    exact hs (a :: ys) (List.mem_cons_self _ l) a (List.mem_cons_self a ys)

theorem joinSp_getLast_nonspace : ∀ ws : List (List Char),
    (∀ w ∈ ws, w ≠ []) → (∀ w ∈ ws, ∀ c ∈ w, isPySpace c = false) →
    ∀ a, (joinSp ws).getLast? = some a → isPySpace a = false := by
  intro ws
  induction ws with
  | nil => intro _ _ a ha; simp [joinSp] at ha
  | cons w l ih =>
    intro hw hs a ha
    cases l with
    | nil =>
      exact hs w (List.mem_cons_self w []) a (mem_of_getLast?_eq w a ha)
    | cons v l' =>
      rw [joinSp_cons_of_ne w (v :: l') (by simp), List.getLast?_append] at ha
      have hJne : joinSp (v :: l') ≠ [] :=
        joinSp_ne_nil (v :: l') (by simp) (fun x hx => hw x (List.mem_cons_of_mem w hx))
      cases hJ : (joinSp (v :: l')).getLast? with
      | none =>
        have h2 := List.getLast?_isSome.mpr hJne
        rw [hJ] at h2
        simp at h2
      | some b =>
        have hgl : (' ' :: joinSp (v :: l')).getLast? = some b := by
          show ([' '] ++ joinSp (v :: l')).getLast? = some b
          rw [List.getLast?_append, hJ]
          rfl
        rw [hgl] at ha
        have hba : b = a := by simpa using ha
        exact ih (fun x hx => hw x (List.mem_cons_of_mem w hx))
          (fun x hx => hs x (List.mem_cons_of_mem w hx)) a (hba ▸ hJ)

theorem collapseWs_cons_nonspace (c : Char) (cs : List Char) (h : isPySpace c = false) :
    collapseWs (c :: cs) = c :: collapseWs cs := by
  show collapseWsF (cs.length + 1) (c :: cs) = c :: collapseWs cs
  have e : collapseWsF (cs.length + 1) (c :: cs)
      = if isPySpace c = true then ' ' :: collapseWsF cs.length (cs.dropWhile isPySpace)
        else c :: collapseWsF cs.length cs := rfl
  rw [e, if_neg (by simp [h])]
  rfl

theorem collapseWs_cons_space_head (cs : List Char)
    (hhead : ∀ a, cs.head? = some a → isPySpace a = false) :
    collapseWs (' ' :: cs) = ' ' :: collapseWs cs := by
  show collapseWsF (cs.length + 1) (' ' :: cs) = ' ' :: collapseWs cs
  have e : collapseWsF (cs.length + 1) (' ' :: cs)
      = if isPySpace ' ' = true then ' ' :: collapseWsF cs.length (cs.dropWhile isPySpace)
        else ' ' :: collapseWsF cs.length cs := rfl
  rw [e, if_pos (by decide), dropWhile_eq_self_of_head isPySpace cs hhead]
  rfl

theorem collapseWs_append_nospace : ∀ (w rest : List Char),
    (∀ c ∈ w, isPySpace c = false) →
    collapseWs (w ++ rest) = w ++ collapseWs rest := by
  intro w
  induction w with
  | nil => intro rest _; rfl
  | cons c cs ih =>
    intro rest hs
    rw [List.cons_append,
      collapseWs_cons_nonspace c (cs ++ rest) (hs c (List.mem_cons_self c cs)),
      ih rest (fun x hx => hs x (List.mem_cons_of_mem c hx))]
    exact rfl

theorem collapseWs_id_nospace : ∀ w : List Char,
    (∀ c ∈ w, isPySpace c = false) → collapseWs w = w := by
  intro w
  induction w with
  | nil => intro _; rfl
  | cons c cs ih =>
    intro hs
    rw [collapseWs_cons_nonspace c cs (hs c (List.mem_cons_self c cs)),
      ih (fun x hx => hs x (List.mem_cons_of_mem c hx))]

theorem collapseWs_goodwords : ∀ ws : List (List Char),
    (∀ w ∈ ws, w ≠ []) → (∀ w ∈ ws, ∀ c ∈ w, isPySpace c = false) →
    collapseWs (joinSp ws) = joinSp ws := by
  intro ws
  induction ws with
  | nil => intro _ _; rfl
  | cons w l ih =>
    intro hw hs
    cases l with
    | nil =>
      show collapseWs w = w
      exact collapseWs_id_nospace w (hs w (List.mem_cons_self w []))
    | cons v l' =>
      rw [joinSp_cons_of_ne w (v :: l') (by simp),
        collapseWs_append_nospace w (' ' :: joinSp (v :: l'))
          (hs w (List.mem_cons_self w _))]
      congr 1
      rw [collapseWs_cons_space_head (joinSp (v :: l'))
        (joinSp_head_nonspace (v :: l') (by simp)
          (fun x hx => hw x (List.mem_cons_of_mem w hx))
          (fun x hx => hs x (List.mem_cons_of_mem w hx)))]
      rw [ih (fun x hx => hw x (List.mem_cons_of_mem w hx))
        (fun x hx => hs x (List.mem_cons_of_mem w hx))]

theorem joinSp_split_at_space : ∀ ws : List (List Char),
    (∀ w ∈ ws, w ≠ []) → (∀ w ∈ ws, ∀ c ∈ w, isPySpace c = false) →
    ∀ k : Nat, (joinSp ws)[k]? = some ' ' →
    ∃ ws₁ ws₂, ws = ws₁ ++ ws₂ ∧ ws₁ ≠ [] ∧ ws₂ ≠ [] ∧
      (joinSp ws).take k = joinSp ws₁ ∧ (joinSp ws).drop (k + 1) = joinSp ws₂ := by
  intro ws
  induction ws with
  | nil => intro _ _ k hk; simp [joinSp] at hk
  | cons w l ih =>
    intro hw hs k hk
    cases l with
    | nil =>
      exfalso
      have hk' : w[k]? = some ' ' := hk
      have hmem : ' ' ∈ w := mem_of_getElem?_eq w k ' ' hk'
      have h2 := hs w (List.mem_cons_self w []) ' ' hmem
      exact absurd h2 (by decide)
    | cons v l' =>
      rw [joinSp_cons_of_ne w (v :: l') (by simp), List.getElem?_append] at hk
      by_cases hkw : k < w.length
      · rw [if_pos hkw] at hk
        exfalso
        have hmem := mem_of_getElem?_eq w k ' ' hk
        have h2 := hs w (List.mem_cons_self w _) ' ' hmem
        exact absurd h2 (by decide)
      · rw [if_neg hkw] at hk
        push_neg at hkw
        by_cases hke : k = w.length
        · subst hke
          refine ⟨[w], v :: l', rfl, by simp, by simp, ?_, ?_⟩
          · rw [joinSp_cons_of_ne w (v :: l') (by simp)]
            show (w ++ ' ' :: joinSp (v :: l')).take w.length = joinSp [w]
            rw [List.take_left]
            rfl
          · rw [joinSp_cons_of_ne w (v :: l') (by simp)]
            show (w ++ ' ' :: joinSp (v :: l')).drop (w.length + 1) = joinSp (v :: l')
            rw [@List.drop_append _ w (' ' :: joinSp (v :: l')) 1]
            rfl
        · have hklt : w.length < k := lt_of_le_of_ne hkw (Ne.symm hke)
          obtain ⟨k', rfl⟩ : ∃ k', k = w.length + (k' + 1) :=
            ⟨k - w.length - 1, by omega⟩
          have hk2 : (joinSp (v :: l'))[k']? = some ' ' := by
            have he : w.length + (k' + 1) - w.length = k' + 1 := by omega
            rw [he] at hk
            rwa [List.getElem?_cons_succ] at hk
          obtain ⟨ws₁, ws₂, hws, h1ne, h2ne, htake, hdrop⟩ :=
            ih (fun x hx => hw x (List.mem_cons_of_mem w hx))
               (fun x hx => hs x (List.mem_cons_of_mem w hx)) k' hk2
          refine ⟨w :: ws₁, ws₂, by rw [List.cons_append, ← hws], by simp, h2ne, ?_, ?_⟩
          · rw [joinSp_cons_of_ne w (v :: l') (by simp)]
            rw [@List.take_append _ w (' ' :: joinSp (v :: l')) (k' + 1)]
            rw [List.take_succ_cons, htake]
            rw [joinSp_cons_of_ne w ws₁ h1ne]
          · rw [joinSp_cons_of_ne w (v :: l') (by simp)]
            have he : w.length + (k' + 1) + 1 = w.length + (k' + 2) := by omega
            rw [he]
            rw [@List.drop_append _ w (' ' :: joinSp (v :: l')) (k' + 2)]
            show (joinSp (v :: l')).drop (k' + 1) = joinSp ws₂
            exact hdrop

theorem joinSp_splitChunks : ∀ (n m : Nat), 1 ≤ m → ∀ ws : List (List Char),
    (joinSp ws).length ≤ n →
    (∀ w ∈ ws, w ≠ []) → (∀ w ∈ ws, ∀ c ∈ w, isPySpace c = false) →
    (∀ w ∈ ws, w.length ≤ m) →
    joinSp (splitChunks m (joinSp ws)) = joinSp ws := by
  intro n
  induction n with
  | zero =>
    intro m hm ws hlen _ _ _
    have hnil : joinSp ws = [] := List.length_eq_zero.mp (Nat.le_zero.mp hlen)
    rw [hnil]
    rfl
  | succ n ih =>
    intro m hm ws hlen hw hs hwl
    by_cases hnil : joinSp ws = []
    · rw [hnil]; rfl
    · rw [splitChunks_cons_eq m (joinSp ws) hm hnil]
      by_cases hfit : (joinSp ws).length ≤ m
      · rw [split_at_of_le _ _ hfit, List.drop_length, pyStrip_nil, splitChunks_nil]
        rfl
      · push_neg at hfit
        have hne : ws ≠ [] := by
          intro h
          rw [h] at hnil
          exact hnil rfl
        cases hr : rfindIdx ' ' ((joinSp ws).take m) with
        | none =>
          obtain ⟨w, l, rfl⟩ : ∃ w l, ws = w :: l := by
            cases ws with
            | nil => exact absurd rfl hne
            | cons a b => exact ⟨a, b, rfl⟩
          cases l with
          | nil =>
            exfalso
            have hlw : (joinSp [w]).length = w.length := rfl
            have hle : w.length ≤ m := hwl w (List.mem_cons_self w [])
            omega
          | cons v l' =>
            have hJ : joinSp (w :: v :: l') = w ++ ' ' :: joinSp (v :: l') :=
              joinSp_cons_of_ne w (v :: l') (by simp)
            have hwm : w.length = m := by
              have hle : w.length ≤ m := hwl w (List.mem_cons_self w _)
              by_contra hlt'
              have hwlt : w.length < m := lt_of_le_of_ne hle hlt'
              have hsp : (joinSp (w :: v :: l'))[w.length]? = some ' ' := by
                rw [hJ, List.getElem?_append, if_neg (by omega)]
                have he : w.length - w.length = 0 := by omega
                rw [he]
                exact List.getElem?_cons_zero
              have hmem : ' ' ∈ (joinSp (w :: v :: l')).take m := by
                have h2 : ((joinSp (w :: v :: l')).take m)[w.length]? = some ' ' := by
                  rw [List.getElem?_take, if_pos hwlt]
                  exact hsp
                exact mem_of_getElem?_eq _ _ _ h2
              exact (rfindIdx_eq_none_iff ' ' _).mp hr hmem
            have hchunk : split_at_word_boundary (joinSp (w :: v :: l')) m = w := by
              unfold split_at_word_boundary
              rw [if_neg (not_le.mpr hfit), hr, hJ, ← hwm, List.take_left]
            rw [hchunk]
            have hnext : pyStrip ((joinSp (w :: v :: l')).drop w.length)
                = joinSp (v :: l') := by
              rw [hJ, List.drop_left, pyStrip_cons_space ' ' _ (by decide)]
              exact pyStrip_eq_self _
                (joinSp_head_nonspace (v :: l') (by simp)
                  (fun x hx => hw x (List.mem_cons_of_mem w hx))
                  (fun x hx => hs x (List.mem_cons_of_mem w hx)))
                (joinSp_getLast_nonspace (v :: l')
                  (fun x hx => hw x (List.mem_cons_of_mem w hx))
                  (fun x hx => hs x (List.mem_cons_of_mem w hx)))
            rw [hnext]
            have hlenJ : (joinSp (w :: v :: l')).length
                = w.length + 1 + (joinSp (v :: l')).length := by
              rw [hJ]
              simp [List.length_append, List.length_cons]
              omega
            have hIH : joinSp (splitChunks m (joinSp (v :: l'))) = joinSp (v :: l') :=
              ih m hm (v :: l') (by omega)
                (fun x hx => hw x (List.mem_cons_of_mem w hx))
                (fun x hx => hs x (List.mem_cons_of_mem w hx))
                (fun x hx => hwl x (List.mem_cons_of_mem w hx))
            have hJne : joinSp (v :: l') ≠ [] :=
              joinSp_ne_nil (v :: l') (by simp)
                (fun x hx => hw x (List.mem_cons_of_mem w hx))
            have hcne : splitChunks m (joinSp (v :: l')) ≠ [] := by
              rw [splitChunks_cons_eq m _ hm hJne]
              simp
            rw [joinSp_cons_of_ne w _ hcne, hIH, hJ]
        | some k =>
          have hkm : k < m := by
            have h2 := rfindIdx_lt_length _ _ _ hr
            rw [List.length_take] at h2
            exact lt_of_lt_of_le h2 (min_le_left _ _)
          have hsp : (joinSp ws)[k]? = some ' ' := by
            have h2 := rfindIdx_some_getElem _ _ _ hr
            rwa [List.getElem?_take, if_pos hkm] at h2
          obtain ⟨ws₁, ws₂, hws, h1ne, h2ne, htake, hdrop⟩ :=
            joinSp_split_at_space ws hw hs k hsp
          have hws₂mem : ∀ x ∈ ws₂, x ∈ ws := by
            intro x hx
            rw [hws]
            exact List.mem_append.mpr (Or.inr hx)
          have hchunk : split_at_word_boundary (joinSp ws) m = (joinSp ws).take k := by
            unfold split_at_word_boundary
            rw [if_neg (not_le.mpr hfit), hr]
          rw [hchunk]
          have hlenchunk : ((joinSp ws).take k).length = k := by
            rw [List.length_take]
            exact min_eq_left (le_of_lt (lt_trans hkm hfit))
          rw [hlenchunk]
          have hklen : k < (joinSp ws).length := lt_trans hkm hfit
          have hdropk : (joinSp ws).drop k = ' ' :: (joinSp ws).drop (k + 1) := by
            rw [List.drop_eq_getElem_cons hklen]
            congr 1
            have h3 := List.getElem?_eq_getElem hklen
            rw [hsp] at h3
            exact Option.some.inj h3.symm
          rw [hdropk, pyStrip_cons_space ' ' _ (by decide), hdrop]
          have hstrip : pyStrip (joinSp ws₂) = joinSp ws₂ :=
            pyStrip_eq_self _
              (joinSp_head_nonspace ws₂ h2ne
                (fun x hx => hw x (hws₂mem x hx))
                (fun x hx => hs x (hws₂mem x hx)))
              (joinSp_getLast_nonspace ws₂
                (fun x hx => hw x (hws₂mem x hx))
                (fun x hx => hs x (hws₂mem x hx)))
          rw [hstrip]
          have hlen₂ : (joinSp ws₂).length ≤ n := by
            have h4 : (joinSp ws).drop (k + 1) = joinSp ws₂ := hdrop
            have h5 : ((joinSp ws).drop (k + 1)).length = (joinSp ws).length - (k + 1) :=
              List.length_drop _ _
            rw [h4] at h5
            omega
          have hIH : joinSp (splitChunks m (joinSp ws₂)) = joinSp ws₂ :=
            ih m hm ws₂ hlen₂
              (fun x hx => hw x (hws₂mem x hx))
              (fun x hx => hs x (hws₂mem x hx))
              (fun x hx => hwl x (hws₂mem x hx))
          have hJ₂ne : joinSp ws₂ ≠ [] :=
            joinSp_ne_nil ws₂ h2ne (fun x hx => hw x (hws₂mem x hx))
          have hcne : splitChunks m (joinSp ws₂) ≠ [] := by
            rw [splitChunks_cons_eq m _ hm hJ₂ne]
            simp
          rw [joinSp_cons_of_ne _ _ hcne, hIH, ← hdrop, ← hdropk, List.take_append_drop]

/-- Counterexample to **C5** as stated: with `maxLength = 1` the chunks
of `"ab"` rejoin to `"a b"`, not to `"ab"` (the hard cut inserts a space
inside a word); and with `maxLength = 3` the chunks of `"a  b"` rejoin
to `"a  b"`, keeping the double space that the claim says collapses. -/
theorem C5_rejoin_counterexample :
    joinSp (splitChunks 1 (pstr "ab")) = pstr "a b" ∧
    collapseWs (pstr "ab") = pstr "ab" ∧
    joinSp (splitChunks 1 (pstr "ab")) ≠ collapseWs (pstr "ab") ∧
    joinSp (splitChunks 3 (pstr "a  b")) = pstr "a  b" ∧
    collapseWs (pstr "a  b") = pstr "a b" ∧
    joinSp (splitChunks 3 (pstr "a  b")) ≠ collapseWs (pstr "a  b") := by
  refine ⟨by decide, by decide, by decide, by decide, by decide, by decide⟩

/-- **C5** (amended) For every `maxLength ≥ 1` and every text made of
nonempty whitespace-free words, each of length at most `maxLength`,
joined by single spaces, joining the splitter's chunk sequence with
single spaces yields the input text back — and such a text equals its
own whitespace-collapse, so the rejoin also equals the input with
whitespace runs collapsed.  (For general text the property fails: a
hard cut inserts a space inside a word, and a run of two spaces
survives rejoining, see the counterexample.) -/
theorem C5_rejoin_amended : ∀ (m : Nat) (ws : List (List Char)),
    1 ≤ m →
    (∀ w ∈ ws, w ≠ []) →
    (∀ w ∈ ws, ∀ c ∈ w, isPySpace c = false) →
    (∀ w ∈ ws, w.length ≤ m) →
    joinSp (splitChunks m (joinSp ws)) = joinSp ws ∧
    collapseWs (joinSp ws) = joinSp ws := by
  intro m ws hm hw hs hwl
  exact ⟨joinSp_splitChunks (joinSp ws).length m hm ws (le_refl _) hw hs hwl,
    collapseWs_goodwords ws hw hs⟩

/-- Witness for `C5_rejoin_amended` on the words `["hi", "yo"]` with
budget 3. -/
theorem C5_rejoin_amended_witness :
    joinSp (splitChunks 3 (joinSp [pstr "hi", pstr "yo"])) = joinSp [pstr "hi", pstr "yo"] ∧
    collapseWs (joinSp [pstr "hi", pstr "yo"]) = joinSp [pstr "hi", pstr "yo"] :=
  C5_rejoin_amended 3 [pstr "hi", pstr "yo"] (by omega) (by decide) (by decide) (by decide)
